import Mathlib

/-!
Verification development for the file-manager-services repository.

JavaScript strings are modelled as `List Char`, JS `Map`s as association
lists in insertion order, and every fallible operation as `Except` over an
explicit error type mirroring `FileManagerErrors.ts`.  Backend services
(octokit, googleapis) are modelled as function parameters returning
`Except` of a backend error type, so that adapter control flow (catch /
re-throw) can be stated faithfully.
-/

/-- One ASCII-letter test, the character class of the regex
`\.[a-zA-Z]+$` used by `ResourceInfo` to infer a file type. -/
def isAsciiLetter (c : Char) : Bool :=
  ('a' ≤ c && c ≤ 'z') || ('A' ≤ c && c ≤ 'Z')

/-- The apostrophe character, used in several error-message templates. -/
def quoteChar : Char := Char.ofNat 39

/-- Splitting a string on the slash separator, keeping empty pieces, as
JS `rscPath.split("/")` does.  The accumulator holds the current piece
reversed. -/
def splitAux : List Char → List Char → List (List Char)
  | [], acc => [acc.reverse]
  | c :: cs, acc =>
    if c = '/' then acc.reverse :: splitAux cs [] else splitAux cs (c :: acc)

/-- JS `rscPath.split("/").filter(Boolean)`: the nonempty slash-separated
segments of a path. -/
def segs (s : List Char) : List (List Char) :=
  (splitAux s []).filter (fun x => !x.isEmpty)

/-- JS `segments.join("/")`. -/
def joinSegs : List (List Char) → List Char
  | [] => []
  | [s] => s
  | s :: rest => s ++ '/' :: joinSegs rest

/-- Function `normalizePath` from `src/utils/path-utils.ts` (lines 16-21): empty
input yields the empty string; otherwise empty segments are dropped, the
rest rejoined with single slashes, and a leading and/or trailing slash is
added per the flags — the trailing slash only when the trimmed body is
nonempty (`trimmed.length && opts.addTrailingSlash`). -/
def normalizePath (rscPath : List Char) (addLeadingSlash addTrailingSlash : Bool) : List Char :=
  if rscPath = [] then []
  else
    let trimmed := joinSegs (segs rscPath)
    (if addLeadingSlash then ['/'] else []) ++ trimmed ++
      (if trimmed ≠ [] ∧ addTrailingSlash = true then ['/'] else [])

/-- Function `splitPath` from `src/utils/path-utils.ts`: cut at
`lastIndexOf("/") + 1`, returning (parent folder prefix, resource name).
The name is the maximal slash-free suffix; the parent keeps its trailing
slash (or is empty when the input has no slash). -/
def splitPath (s : List Char) : List Char × List Char :=
  ((s.reverse.dropWhile (fun c => !(c = '/'))).reverse,
   (s.reverse.takeWhile (fun c => !(c = '/'))).reverse)

/-- Removal of the first occurrence of a (nonempty) pattern, scanning
left to right: the semantics of JS `String.prototype.replace` with a
string pattern and an empty replacement. -/
def removeFirstAux (pat : List Char) : List Char → List Char
  | [] => []
  | c :: cs =>
    if pat.isPrefixOf (c :: cs) then (c :: cs).drop pat.length
    else c :: removeFirstAux pat cs

/-- JS `s.replace(pat, "")` for a string pattern: JS replaces only the first
occurrence; an empty pattern inserts the empty replacement at position 0,
leaving the string unchanged. -/
def removeFirst (s pat : List Char) : List Char :=
  if pat = [] then s else removeFirstAux pat s

/-- Inner loop of the regex test `\.[a-zA-Z]+$` on the reversed string:
after at least one trailing letter has been consumed, accept on a dot,
keep consuming letters, reject anything else. -/
def dotAfterLetters : List Char → Bool
  | [] => false
  | c :: rest => if c = '.' then true else isAsciiLetter c && dotAfterLetters rest

/-- The regex test `\.[a-zA-Z]+$` read on the reversed string: the last
character must be an ASCII letter, followed (leftwards) by letters up to
a dot. -/
def extMatchRev : List Char → Bool
  | [] => false
  | c :: rest => isAsciiLetter c && dotAfterLetters rest

/-- JS `rscPath.match(/\.[a-zA-Z]+$/)` as a Boolean: the path ends with a
dot followed by one or more ASCII letters. -/
def endsWithExt (p : List Char) : Bool := extMatchRev p.reverse

/-- The two resource kinds of `ResourceInfoOptions.type`. -/
inductive RscType
  | file
  | dir
deriving DecidableEq, Repr

/-- Options `ResourceInfoOptions` from `src/services/ResourceInfo.ts`: an
optional root directory to strip and an optional declared type
(`rscType` models the `type` field). -/
structure RscOptions where
  rootDir : List Char := []
  rscType : Option RscType := none

/-- The error taxonomy of `src/services/FileManagerErrors.ts`:
`FileManagerError(code, message)` and its `FileNotFoundError` /
`FileUpdateError` subclasses carrying the offending path. -/
inductive FmError
  | fileManagerError (code : Nat) (message : List Char)
  | fileNotFoundError (path : List Char) (message : List Char)
  | fileUpdateError (path : List Char) (message : List Char)
deriving DecidableEq, Repr

/-- Message of the `FileManagerError` thrown on an empty resource path
(constructor lines 27-33). -/
def emptyPathMsg : List Char :=
  ("Bad parameter : empty path specified for new resource. Use \x27/\x27 to refer to the <root> directory.").toList

/-- Type resolution of the `ResourceInfo` constructor (lines 37-43): a
declared type wins; otherwise the type is `file` exactly when the raw
path matches `\.[a-zA-Z]+$`.  (The intermediate trailing-slash
assignment at lines 38-40 is unconditionally overwritten at line 42 and
has no effect: a path ending in a slash never matches the extension
regex, so it still comes out as `dir`.) -/
def effectiveType (rscPath : List Char) (t : Option RscType) : RscType :=
  match t with
  | some ty => ty
  | none => if endsWithExt rscPath then RscType.file else RscType.dir

/-- The canonical path computed by the `ResourceInfo` constructor
(`src/services/ResourceInfo.ts` lines 26-49): reject an empty raw path
with a 400 `FileManagerError`; resolve the type; remove the first
occurrence of the normalized `rootDir` (a plain `String.replace`, hence
a substring, not an anchored prefix, removal); normalize with a leading
slash always and a trailing slash for directories. -/
def resourceInfoPath (rscPath : List Char) (options : RscOptions) : Except FmError (List Char) :=
  if rscPath = [] then
    Except.error (FmError.fileManagerError 400 emptyPathMsg)
  else
    let t := effectiveType rscPath options.rscType
    Except.ok (normalizePath (removeFirst rscPath (normalizePath options.rootDir false false))
      true (t == RscType.dir))

deriving instance DecidableEq for Except

/-- A value stored in the in-memory file system: JS `string | Buffer`. -/
inductive JsContent
  | text (s : List Char)
  | binary (b : List Nat)
deriving DecidableEq, Repr

/-- JS truthiness of a stored value: the empty string is falsy, every
other string is truthy, and a `Buffer` object is always truthy (even
when it holds zero bytes). -/
def JsContent.truthy : JsContent → Bool
  | JsContent.text s => !s.isEmpty
  | JsContent.binary _ => true

/-- A JS `Map` keyed by strings, in insertion order. -/
abbrev JsAssoc (α : Type) : Type := List (List Char × α)

/-- JS `Map.prototype.get`: the value at the first matching key. -/
def assocGet {α : Type} (m : JsAssoc α) (k : List Char) : Option α :=
  match m with
  | [] => none
  | e :: rest => if e.1 = k then some e.2 else assocGet rest k

/-- JS `Map.prototype.set`: overwrite in place when the key exists (keeping
its position), append otherwise. -/
def assocSet {α : Type} (m : JsAssoc α) (k : List Char) (v : α) : JsAssoc α :=
  match m with
  | [] => [(k, v)]
  | e :: rest => if e.1 = k then (k, v) :: rest else e :: assocSet rest k v

/-- JS `Map.prototype.delete`: drop the entry with the given key. -/
def assocDelete {α : Type} (m : JsAssoc α) (k : List Char) : JsAssoc α :=
  m.filter (fun e => !(e.1 == k))

/-- JS `Map.prototype.keys`, in insertion order. -/
def assocKeys {α : Type} (m : JsAssoc α) : List (List Char) :=
  m.map Prod.fst

/-- The `InMemoryFileManager` store: `Map<string, Buffer | string>`. -/
abbrev JsMap : Type := JsAssoc JsContent

/-- Message of the `FileNotFoundError` thrown by
`InMemoryFileManager.getFileContent`. -/
def msgFileNotFound : List Char := ("File not found").toList

/-- Message of the `FileNotFoundError` thrown by
`InMemoryFileManager.deleteFile`. -/
def msgCannotDelete : List Char := ("Cannot delete file").toList

/-- Method `InMemoryFileManager.getFileContent` (lines 210-216): look the path
up in the map and throw `FileNotFoundError` when the value is missing
or falsy — so a stored empty string is reported as not found. -/
def inMemGetFileContent (m : JsMap) (path : List Char) : Except FmError JsContent :=
  match assocGet m path with
  | some c =>
    if c.truthy then Except.ok c
    else Except.error (FmError.fileNotFoundError path msgFileNotFound)
  | none => Except.error (FmError.fileNotFoundError path msgFileNotFound)

/-- Method `InMemoryFileManager.updateTextFile` (lines 218-220): an
unconditional `Map.set`. -/
def inMemUpdateTextFile (m : JsMap) (path content : List Char) : JsMap :=
  assocSet m path (JsContent.text content)

/-- Method `InMemoryFileManager.updateBinaryFile` (lines 222-224): an
unconditional `Map.set`. -/
def inMemUpdateBinaryFile (m : JsMap) (path : List Char) (content : List Nat) : JsMap :=
  assocSet m path (JsContent.binary content)

/-- Method `InMemoryFileManager.deleteFile` (lines 226-232): throw
`FileNotFoundError` when the value is missing or falsy (again treating
a stored empty string as absent), otherwise delete the key. -/
def inMemDeleteFile (m : JsMap) (path : List Char) : Except FmError JsMap :=
  match assocGet m path with
  | some c =>
    if c.truthy then Except.ok (assocDelete m path)
    else Except.error (FmError.fileNotFoundError path msgCannotDelete)
  | none => Except.error (FmError.fileNotFoundError path msgCannotDelete)

/-- Key selection of `InMemoryFileManager.listDirectoryContent` (lines
234-252): keep every stored key that starts with `dirPath`; when not
recursive, additionally require that the remainder after the prefix
contains no slash.  Each selected key is then wrapped as
`new ResourceInfo(rscPath)` (see `inMemListDirectoryContent`). -/
def inMemListKeys (m : JsMap) (dirPath : List Char) (recursive : Bool) : List (List Char) :=
  (assocKeys m).filter
    (fun k => dirPath.isPrefixOf k &&
      (recursive || !((k.drop dirPath.length).contains '/')))

/-- Method `InMemoryFileManager.listDirectoryContent`: the selected keys, each
turned into a `ResourceInfo` (whose construction can itself throw for
an empty key). -/
def inMemListDirectoryContent (m : JsMap) (dirPath : List Char) (recursive : Bool) :
    List (Except FmError (List Char)) :=
  (inMemListKeys m dirPath recursive).map (fun k => resourceInfoPath k {})

/-- Method `InMemoryFileManager.createDirectory` (lines 254-258): append a
trailing slash when missing, then store an empty-string marker. -/
def inMemCreateDirectory (m : JsMap) (dirPath : List Char) : JsMap :=
  let d := if dirPath.getLast? = some '/' then dirPath else dirPath ++ ['/']
  assocSet m d (JsContent.text [])

/-- Method `InMemoryFileManager.deleteDirectory` (lines 260-267): delete every
stored key that starts with the raw `dirPath` string. -/
def inMemDeleteDirectory (m : JsMap) (dirPath : List Char) : JsMap :=
  m.filter (fun e => !(dirPath.isPrefixOf e.1))

/-- An octokit request failure as the Github adapter observes it: an
HTTP status and a message. -/
structure GhErr where
  status : Nat
  message : List Char
deriving DecidableEq, Repr

/-- The file variant of the content-API response, mirroring the
`GithubFileInfo` type of `GithubFileManager.ts`. -/
structure GhFileData where
  path : List Char
  content : Option (List Char)
  encoding : List Char
  size : Nat
  sha : Option (List Char)
deriving DecidableEq, Repr

/-- One entry of a content-API directory listing: its `type` string and
its repository path. -/
structure GhDirEntry where
  entryKind : List Char
  path : List Char
deriving DecidableEq, Repr

/-- A successful `repos.getContent` response: a single file, an array
(directory listing), or some other non-file resource (symlink,
submodule). -/
inductive GhContentData
  | fileData (f : GhFileData)
  | dirData (entries : List GhDirEntry)
  | otherData
deriving DecidableEq, Repr

/-- What can escape a `GithubFileManager` method to its caller: either
one of the contract error kinds of `FileManagerErrors.ts`, or a raw
backend (octokit) error re-thrown unwrapped. -/
inductive GhEscape
  | contract (e : FmError)
  | backendRaw (e : GhErr)
deriving DecidableEq, Repr

/-- The octokit content API as the adapter consumes it:
`repos.getContent` by repository path. -/
abbrev GhGetContent : Type := List Char → Except GhErr GhContentData

/-- Method `GithubFileManager.getPathFromRoot`:
`normalizePath(rootDir + "/" + path)` where `rootDir` is the value
normalized at construction time. -/
def ghFullPath (rootDir path : List Char) : List Char :=
  normalizePath (rootDir ++ '/' :: path) false false

/-- The string `"base64"`. -/
def base64Chars : List Char := ("base64").toList

/-- Message of the `FileNotFoundError` thrown when the content API
returns a non-file resource. -/
def msgPathIsNotFile : List Char := ("Path is not a file").toList

/-- Method `GithubFileManager.getFileInfos` (lines 87-115): fetch metadata at
the root-joined path; a non-file response becomes a `FileNotFoundError`
(which the catch clause re-throws unchanged, since it carries no
`status` field); a rejection with status 404 is translated into the
"file does not exist" descriptor with `content = null`, `sha = null`;
any other rejection is re-thrown raw. -/
def ghGetFileInfos (getC : GhGetContent) (rootDir path : List Char) :
    Except GhEscape GhFileData :=
  match getC (ghFullPath rootDir path) with
  | Except.ok (GhContentData.fileData f) => Except.ok f
  | Except.ok _ =>
    Except.error (GhEscape.contract (FmError.fileNotFoundError path msgPathIsNotFile))
  | Except.error e =>
    if e.status = 404 then
      Except.ok { path := path, content := none, encoding := base64Chars, size := 0, sha := none }
    else Except.error (GhEscape.backendRaw e)

/-- Message of the `FileNotFoundError` thrown by
`GithubFileManager.getFileContent` on a null-content descriptor. -/
def msgFileDoesNotExist : List Char := ("File does not exist").toList

/-- The value returned by `GithubFileManager.getFileContent`: a buffer
decoded from base64 content, or the content as-is for any other
encoding. -/
inductive GhRead
  | base64Buffer (c : List Char)
  | rawText (c : List Char)
deriving DecidableEq, Repr

/-- Method `GithubFileManager.getFileContent` (lines 125-135). -/
def ghGetFileContent (getC : GhGetContent) (rootDir path : List Char) :
    Except GhEscape GhRead :=
  match ghGetFileInfos getC rootDir path with
  | Except.error e => Except.error e
  | Except.ok f =>
    match f.content with
    | none => Except.error (GhEscape.contract (FmError.fileNotFoundError path msgFileDoesNotExist))
    | some c =>
      if f.encoding = base64Chars then Except.ok (GhRead.base64Buffer c)
      else Except.ok (GhRead.rawText c)

/-- Payload handed to `createOrUpdateFileContents`.  The transport
base64 encoding (`Buffer.from(content, "utf-8").toString("base64")` /
`content.toString("base64")`) is carried symbolically: the payload
records which source bytes are encoded. -/
inductive GhPayload
  | fromText (s : List Char)
  | fromBinary (b : List Nat)
deriving DecidableEq, Repr

/-- A mutation issued to the octokit repos API.  A create call carries
no `sha`; an update call passes the fetched `sha`. -/
inductive GhCall
  | createCall (path : List Char) (content : GhPayload) (message : List Char)
  | updateCall (path : List Char) (content : GhPayload) (sha : List Char) (message : List Char)
deriving DecidableEq, Repr

/-- Commit message `Created ${path}`. -/
def createdMsg (path : List Char) : List Char := ("Created ").toList ++ path

/-- Commit message `Updated ${path}`. -/
def updatedMsg (path : List Char) : List Char := ("Updated ").toList ++ path

/-- The create-vs-update selection of `updateTextFile` /
`updateBinaryFile` (lines 148-167 and 183-202): an update call passing
the sha when the fetched descriptor has one, a create call without a
sha otherwise. -/
def ghSelectCall (f : GhFileData) (payload : GhPayload) : GhCall :=
  match f.sha with
  | some s => GhCall.updateCall f.path payload s (updatedMsg f.path)
  | none => GhCall.createCall f.path payload (createdMsg f.path)

/-- Method `GithubFileManager.updateTextFile` up to the octokit invocation: the
metadata fetch followed by the selection of the call to issue. -/
def ghUpdateTextFileIssued (getC : GhGetContent) (rootDir path content : List Char) :
    Except GhEscape GhCall :=
  match ghGetFileInfos getC rootDir path with
  | Except.error e => Except.error e
  | Except.ok f => Except.ok (ghSelectCall f (GhPayload.fromText content))

/-- Method `GithubFileManager.updateBinaryFile` up to the octokit invocation. -/
def ghUpdateBinaryFileIssued (getC : GhGetContent) (rootDir path : List Char)
    (content : List Nat) : Except GhEscape GhCall :=
  match ghGetFileInfos getC rootDir path with
  | Except.error e => Except.error e
  | Except.ok f => Except.ok (ghSelectCall f (GhPayload.fromBinary content))

/-- Method `GithubFileManager.updateTextFile` (lines 144-171) in full, with the
mutation backend `mutate` standing for `createOrUpdateFileContents`: a
rejection of the mutation itself is wrapped as `FileUpdateError`, while
the metadata fetch is outside the try block. -/
def ghUpdateTextFile (getC : GhGetContent) (mutate : GhCall → Except GhErr Unit)
    (rootDir path content : List Char) : Except GhEscape GhCall :=
  match ghGetFileInfos getC rootDir path with
  | Except.error e => Except.error e
  | Except.ok f =>
    match mutate (ghSelectCall f (GhPayload.fromText content)) with
    | Except.ok _ => Except.ok (ghSelectCall f (GhPayload.fromText content))
    | Except.error e =>
      Except.error (GhEscape.contract (FmError.fileUpdateError f.path e.message))

/-- Method `GithubFileManager.listDirectoryContent` (lines 236-265), one level:
the content-API call has no catch at all, so a rejection escapes raw;
a file-or-dir entry of an array response is wrapped as
`new ResourceInfo(path, { type, rootDir })`.  The recursive descent into
subdirectories is not needed by the claims settled here and is not
modelled; this definition returns the current directory level. -/
def ghListDirectoryLevel (getC : GhGetContent) (rootDir dirPath : List Char) :
    Except GhEscape (List (Except FmError (List Char))) :=
  match getC (ghFullPath rootDir dirPath) with
  | Except.error e => Except.error (GhEscape.backendRaw e)
  | Except.ok (GhContentData.dirData entries) =>
    Except.ok ((entries.filter
      (fun en => en.entryKind = ("dir").toList || en.entryKind = ("file").toList)).map
      (fun en => resourceInfoPath en.path
        { rootDir := rootDir,
          rscType := some (if en.entryKind = ("dir").toList then RscType.dir else RscType.file) }))
  | Except.ok _ => Except.ok []

/-- A content-API backend that rejects every request with a 404, the
situation of a file that does not exist yet. -/
def ghBackend404 : GhGetContent := fun _ => Except.error { status := 404, message := [] }

/-- A content-API backend that rejects every request with a 500. -/
def ghBackend500 : GhGetContent :=
  fun _ => Except.error { status := 500, message := ("boom").toList }

/-- A mutation backend that rejects every call. -/
def ghMutAlwaysFail : GhCall → Except GhErr Unit :=
  fun _ => Except.error { status := 500, message := ("boom").toList }

/-- A googleapis request failure as the Drive adapter observes it. -/
structure DriveErr where
  message : List Char
deriving DecidableEq, Repr

/-- One node of a Drive `files.list` response. -/
structure DriveNode where
  id : List Char
  name : List Char
  mimeType : List Char
deriving DecidableEq, Repr

/-- Media payload of a Drive `files.update` call. -/
inductive DriveMedia
  | text (s : List Char)
  | binary (b : List Nat)
deriving DecidableEq, Repr

/-- The Drive v3 API surface consumed by `GoogleDriveFileManager`, one
field per query shape the adapter issues. -/
structure DriveBe where
  folderQuery : List Char → List Char → Except DriveErr (List DriveNode)
  childQuery : List Char → List Char → Except DriveErr (List DriveNode)
  childrenQuery : List Char → Except DriveErr (List DriveNode)
  createFolder : List Char → List Char → Except DriveErr (List Char)
  updateMedia : List Char → DriveMedia → Except DriveErr Unit
  deleteNode : List Char → Except DriveErr Unit
  getMedia : List Char → Except DriveErr (List Nat)

/-- What can escape a `GoogleDriveFileManager` method: a contract error
or a raw googleapis rejection (the resolution-phase `files.list` /
`files.create` calls sit outside every try block). -/
inductive DriveEscape
  | contract (e : FmError)
  | backendRaw (e : DriveErr)
deriving DecidableEq, Repr

/-- The path → ID memoization cache (`idsCache`). -/
abbrev IdCache : Type := JsAssoc (List Char)

/-- The cache as initialized by the class: `{"/": "root"}`. -/
def driveInitCache : IdCache := [(("/").toList, ("root").toList)]

/-- The Drive root folder alias `"root"`. -/
def driveRootId : List Char := ("root").toList

/-- The folder mime type `application/vnd.google-apps.folder`. -/
def folderMime : List Char := ("application/vnd.google-apps.folder").toList

/-- Method `GoogleDriveFileManager.getPathFromRoot`:
`normalizePath(rootDir + "/" + path)` on the raw constructor-supplied
`rootDir` (default `"/"`). -/
def drivePathFromRoot (rootDir path : List Char) : List Char :=
  normalizePath (rootDir ++ '/' :: path) false false

/-- Message `Folder '${folderPath}' does not exist`. -/
def msgFolderNoExist (folderPath : List Char) : List Char :=
  ("Folder ").toList ++ quoteChar :: folderPath ++ quoteChar :: (" does not exist").toList

/-- Message `File '${normalizedPath}' does not exist`. -/
def msgDriveFileNoExist (normalizedPath : List Char) : List Char :=
  ("File ").toList ++ quoteChar :: normalizedPath ++ quoteChar :: (" does not exist").toList

/-- The segment walk of `getFolderIdByPath` (lines 147-173): starting
from `"root"`, query each segment among the children of the current
folder; on zero matches either fail with `FileNotFoundError` (carrying
the full normalized path) or, when `createIfNotExist`, create the
folder.  The `files.list` and `files.create` calls are outside any try
block, so their rejections escape raw. -/
def driveWalkFolders (be : DriveBe) (createIfNotExist : Bool) (fp : List Char) :
    List (List Char) → List Char → Except DriveEscape (List Char)
  | [], folderId => Except.ok folderId
  | name :: rest, folderId =>
    match be.folderQuery folderId name with
    | Except.error e => Except.error (DriveEscape.backendRaw e)
    | Except.ok [] =>
      if createIfNotExist then
        match be.createFolder folderId name with
        | Except.error e => Except.error (DriveEscape.backendRaw e)
        | Except.ok newId => driveWalkFolders be createIfNotExist fp rest newId
      else
        Except.error (DriveEscape.contract (FmError.fileNotFoundError fp (msgFolderNoExist fp)))
    | Except.ok (f :: _) => driveWalkFolders be createIfNotExist fp rest f.id

/-- Method `GoogleDriveFileManager.getFolderIdByPath` (lines 136-177): join the
root, consult the cache (a cached empty-string ID is falsy and treated
as a miss), walk the segments, and memoize the resolved ID. -/
def driveGetFolderIdByPath (be : DriveBe) (rootDir : List Char) (cache : IdCache)
    (folderPath : List Char) (createIfNotExist : Bool) :
    Except DriveEscape (List Char × IdCache) :=
  let fp := drivePathFromRoot rootDir folderPath
  match assocGet cache fp with
  | some cid =>
    if cid.isEmpty then
      match driveWalkFolders be createIfNotExist fp (segs fp) driveRootId with
      | Except.ok fid => Except.ok (fid, assocSet cache fp fid)
      | Except.error e => Except.error e
    else Except.ok (cid, cache)
  | none =>
    match driveWalkFolders be createIfNotExist fp (segs fp) driveRootId with
    | Except.ok fid => Except.ok (fid, assocSet cache fp fid)
    | Except.error e => Except.error e

/-- Method `GoogleDriveFileManager.getFileIdByPath` (lines 183-213): normalize
with a leading slash, consult the cache (here via `Map.has`, so even a
falsy cached ID hits), split into parent and leaf, resolve the parent
folder (never creating it), query for the leaf among its children; zero
matches is a `FileNotFoundError`, a hit is memoized. -/
def driveGetFileIdByPath (be : DriveBe) (rootDir : List Char) (cache : IdCache)
    (filePath : List Char) : Except DriveEscape (List Char × IdCache) :=
  let np := normalizePath filePath true false
  match assocGet cache np with
  | some fid => Except.ok (fid, cache)
  | none =>
    match driveGetFolderIdByPath be rootDir cache (splitPath np).1 false with
    | Except.error e => Except.error e
    | Except.ok (parentId, cache2) =>
      match be.childQuery parentId (splitPath np).2 with
      | Except.error e => Except.error (DriveEscape.backendRaw e)
      | Except.ok [] =>
        Except.error (DriveEscape.contract
          (FmError.fileNotFoundError np (msgDriveFileNoExist np)))
      | Except.ok (f :: _) => Except.ok (f.id, assocSet cache2 np f.id)

/-- Message `Failed to update text file at path: ${path}`. -/
def msgFailUpdText (path : List Char) : List Char :=
  ("Failed to update text file at path: ").toList ++ path

/-- Message `Failed to update binary file at path: ${path}`. -/
def msgFailUpdBin (path : List Char) : List Char :=
  ("Failed to update binary file at path: ").toList ++ path

/-- Message `Failed to list directory content at path: ${path}`. -/
def msgFailList (path : List Char) : List Char :=
  ("Failed to list directory content at path: ").toList ++ path

/-- Method `GoogleDriveFileManager.updateTextFile` (lines 40-52): resolve the
file ID (which throws `FileNotFoundError` when the file does not exist
— there is no creation fallback), then update its media; only the
update call is inside the try block, wrapped as
`FileManagerError(500, ...)`. -/
def driveUpdateTextFile (be : DriveBe) (rootDir : List Char) (cache : IdCache)
    (path content : List Char) : Except DriveEscape IdCache :=
  match driveGetFileIdByPath be rootDir cache path with
  | Except.error e => Except.error e
  | Except.ok (fid, cache2) =>
    match be.updateMedia fid (DriveMedia.text content) with
    | Except.ok _ => Except.ok cache2
    | Except.error _ =>
      Except.error (DriveEscape.contract (FmError.fileManagerError 500 (msgFailUpdText path)))

/-- Method `GoogleDriveFileManager.updateBinaryFile` (lines 54-66). -/
def driveUpdateBinaryFile (be : DriveBe) (rootDir : List Char) (cache : IdCache)
    (path : List Char) (content : List Nat) : Except DriveEscape IdCache :=
  match driveGetFileIdByPath be rootDir cache path with
  | Except.error e => Except.error e
  | Except.ok (fid, cache2) =>
    match be.updateMedia fid (DriveMedia.binary content) with
    | Except.ok _ => Except.ok cache2
    | Except.error _ =>
      Except.error (DriveEscape.contract (FmError.fileManagerError 500 (msgFailUpdBin path)))

/-- Wrapping of one Drive listing entry:
`new ResourceInfo(file.name, { rootDir, type })` with the type derived
from the folder mime type.  A constructor throw aborts the whole `map`
inside the try block. -/
def driveNodesToRsc (rootDir : List Char) : List DriveNode → Except FmError (List (List Char))
  | [] => Except.ok []
  | n :: rest =>
    match resourceInfoPath n.name
      { rootDir := rootDir,
        rscType := some (if n.mimeType = folderMime then RscType.dir else RscType.file) } with
    | Except.error e => Except.error e
    | Except.ok p =>
      match driveNodesToRsc rootDir rest with
      | Except.error e => Except.error e
      | Except.ok ps => Except.ok (p :: ps)

/-- Method `GoogleDriveFileManager.listDirectoryContent` (lines 83-104): the
`recursive` parameter is received as `_recursive` and never used; the
folder ID resolution sits outside the try block (raw escape), the
listing query and entry wrapping inside it (wrapped as
`FileManagerError(500, ...)`). -/
def driveListDirectoryContent (be : DriveBe) (rootDir : List Char) (cache : IdCache)
    (path : List Char) (_recursive : Bool) :
    Except DriveEscape (List (List Char) × IdCache) :=
  match driveGetFolderIdByPath be rootDir cache path false with
  | Except.error e => Except.error e
  | Except.ok (folderId, cache2) =>
    match be.childrenQuery folderId with
    | Except.error _ =>
      Except.error (DriveEscape.contract (FmError.fileManagerError 500 (msgFailList path)))
    | Except.ok files =>
      match driveNodesToRsc rootDir files with
      | Except.error _ =>
        Except.error (DriveEscape.contract (FmError.fileManagerError 500 (msgFailList path)))
      | Except.ok paths => Except.ok (paths, cache2)

/-- Method `GoogleDriveFileManager.deleteDirectory` (lines 114-121): resolve
the folder ID (raw escape on resolution failures), then delete that
single node, wrapping a rejection as `FileManagerError(500, ...)`;
subtree removal is delegated to the backend. -/
def driveDeleteDirectory (be : DriveBe) (rootDir : List Char) (cache : IdCache)
    (path : List Char) : Except DriveEscape IdCache :=
  match driveGetFolderIdByPath be rootDir cache path false with
  | Except.error e => Except.error e
  | Except.ok (folderId, cache2) =>
    match be.deleteNode folderId with
    | Except.ok _ => Except.ok cache2
    | Except.error _ =>
      Except.error (DriveEscape.contract (FmError.fileManagerError 500
        (("Failed to delete directory at path: ").toList ++ path)))

/-- A Drive backend holding no files or folders at all: every query
answers with an empty result list. -/
def emptyDriveBe : DriveBe where
  folderQuery := fun _ _ => Except.ok []
  childQuery := fun _ _ => Except.ok []
  childrenQuery := fun _ => Except.ok []
  createFolder := fun _ name => Except.ok (("id-").toList ++ name)
  updateMedia := fun _ _ => Except.ok ()
  deleteNode := fun _ => Except.ok ()
  getMedia := fun _ => Except.ok []

/-- The Drive node for the demo folder `sub`. -/
def demoSubFolder : DriveNode :=
  { id := ("f1").toList, name := ("sub").toList, mimeType := folderMime }

/-- The Drive node for the demo file `a.txt` stored at the root. -/
def demoFileA : DriveNode :=
  { id := ("a1").toList, name := ("a.txt").toList, mimeType := ("text/plain").toList }

/-- The Drive node for the demo file `b.txt` stored inside `sub`. -/
def demoFileB : DriveNode :=
  { id := ("b1").toList, name := ("b.txt").toList, mimeType := ("text/plain").toList }

/-- A Drive backend with root containing the folder `sub` and the file
`a.txt`, and `sub` containing the file `b.txt`. -/
def demoDriveBe : DriveBe where
  folderQuery := fun pid name =>
    if pid = driveRootId ∧ name = ("sub").toList then Except.ok [demoSubFolder]
    else Except.ok []
  childQuery := fun pid name =>
    if pid = driveRootId ∧ name = ("a.txt").toList then Except.ok [demoFileA]
    else if pid = ("f1").toList ∧ name = ("b.txt").toList then Except.ok [demoFileB]
    else Except.ok []
  childrenQuery := fun fid =>
    if fid = driveRootId then Except.ok [demoSubFolder, demoFileA]
    else if fid = ("f1").toList then Except.ok [demoFileB]
    else Except.ok []
  createFolder := fun _ name => Except.ok (("id-").toList ++ name)
  updateMedia := fun _ _ => Except.ok ()
  deleteNode := fun _ => Except.ok ()
  getMedia := fun _ => Except.ok []

theorem splitAux_head_ex (s acc : List Char) :
    ∃ pre rest, splitAux s acc = (acc.reverse ++ pre) :: rest := by
  induction s generalizing acc with
  | nil => exact ⟨[], [], by simp [splitAux]⟩
  | cons c cs ih =>
    by_cases hc : c = '/'
    · exact ⟨[], splitAux cs [], by simp [splitAux, hc]⟩
    · obtain ⟨pre, rest, h⟩ := ih (c :: acc)
      exact ⟨c :: pre, rest, by simp [splitAux, hc, h]⟩

theorem splitAux_mem_no_slash (s : List Char) (acc : List Char)
    (hacc : ('/' : Char) ∉ acc) : ∀ x ∈ splitAux s acc, ('/' : Char) ∉ x := by
  induction s generalizing acc with
  | nil =>
    intro x hx
    simp [splitAux] at hx
    subst hx
    simpa using hacc
  | cons c cs ih =>
    intro x hx
    by_cases hc : c = '/'
    · simp [splitAux, hc] at hx
      rcases hx with h | h
      · subst h; simpa using hacc
      · exact ih [] (by simp) x h
    · simp only [splitAux, if_neg hc] at hx
      have hacc2 : ('/' : Char) ∉ c :: acc := by
        simp only [List.mem_cons, not_or]
        exact ⟨fun h => hc h.symm, hacc⟩
      exact ih (c :: acc) hacc2 x hx

theorem splitAux_append_no_slash :
    ∀ (u : List Char), ('/' : Char) ∉ u → ∀ (t acc : List Char),
      splitAux (u ++ t) acc = splitAux t (u.reverse ++ acc)
  | [], _, t, acc => by simp
  | c :: u', hu, t, acc => by
    have hc : ¬ c = '/' := fun h => hu (by simp [h])
    have hu' : ('/' : Char) ∉ u' := fun h => hu (List.mem_cons_of_mem _ h)
    simp [splitAux, hc, splitAux_append_no_slash u' hu' t (c :: acc)]

theorem splitAux_slash_append (a : List Char) :
    ∀ (b acc : List Char), splitAux (a ++ '/' :: b) acc = splitAux a acc ++ splitAux b [] := by
  induction a with
  | nil => intro b acc; simp [splitAux]
  | cons c a' ih =>
    intro b acc
    by_cases hc : c = '/'
    · simp [splitAux, hc, ih]
    · simp [splitAux, hc, ih]

theorem segs_nil : segs [] = [] := by simp [segs, splitAux]

theorem segs_cons_slash (s : List Char) : segs ('/' :: s) = segs s := by
  simp [segs, splitAux]

theorem segs_append_slash (s : List Char) : segs (s ++ ['/']) = segs s := by
  have h : splitAux (s ++ '/' :: []) [] = splitAux s [] ++ splitAux [] [] :=
    splitAux_slash_append s [] []
  simp only [segs, h, splitAux, List.filter_append]
  simp

theorem segs_single_no_slash (u : List Char) (hne : u ≠ []) (hu : ('/' : Char) ∉ u) :
    segs u = [u] := by
  have h := splitAux_append_no_slash u hu [] []
  simp only [List.append_nil] at h
  have hfalse : u.isEmpty = false := by
    cases u with
    | nil => exact absurd rfl hne
    | cons a l => rfl
  rw [segs, h]
  simp [splitAux, hfalse]

theorem segs_append (a b : List Char) : segs (a ++ '/' :: b) = segs a ++ segs b := by
  simp [segs, splitAux_slash_append, List.filter_append]

theorem segs_props (s : List Char) : ∀ x ∈ segs s, x ≠ [] ∧ ('/' : Char) ∉ x := by
  intro x hx
  constructor
  · have hpb := List.of_mem_filter hx
    intro hnil
    subst hnil
    simp at hpb
  · exact splitAux_mem_no_slash s [] (by simp) x (List.mem_of_mem_filter hx)

theorem segs_joinSegs : ∀ (L : List (List Char)),
    (∀ x ∈ L, x ≠ [] ∧ ('/' : Char) ∉ x) → segs (joinSegs L) = L
  | [], _ => by simp [joinSegs, segs_nil]
  | [s], h => by
    have hs := h s (by simp)
    simp [joinSegs, segs_single_no_slash s hs.1 hs.2]
  | s :: r2 :: rest, h => by
    have hs := h s (by simp)
    have hrest : ∀ x ∈ r2 :: rest, x ≠ [] ∧ ('/' : Char) ∉ x :=
      fun x hx => h x (List.mem_cons_of_mem _ hx)
    have hj : joinSegs (s :: r2 :: rest) = s ++ '/' :: joinSegs (r2 :: rest) := by
      simp [joinSegs]
    rw [hj, segs_append, segs_single_no_slash s hs.1 hs.2,
      segs_joinSegs (r2 :: rest) hrest]
    rfl

theorem joinSegs_ne_nil : ∀ (L : List (List Char)), L ≠ [] →
    (∀ x ∈ L, x ≠ []) → joinSegs L ≠ []
  | [], h, _ => absurd rfl h
  | [s], _, h => by simpa [joinSegs] using h s (by simp)
  | s :: r2 :: rest, _, h => by
    have hj : joinSegs (s :: r2 :: rest) = s ++ '/' :: joinSegs (r2 :: rest) := by
      simp [joinSegs]
    rw [hj]
    simp

theorem getLast?_mem_of_eq {α : Type} : ∀ (l : List α) (a : α), l.getLast? = some a → a ∈ l
  | [], a, h => by simp at h
  | [x], a, h => by
    simp [List.getLast?] at h
    simp [h]
  | x :: y :: rest, a, h => by
    rw [List.getLast?_cons_cons] at h
    exact List.mem_cons_of_mem _ (getLast?_mem_of_eq (y :: rest) a h)

theorem getLast?_append_right {α : Type} : ∀ (l l2 : List α), l2 ≠ [] →
    (l ++ l2).getLast? = l2.getLast?
  | [], _, _ => by simp
  | [a], l2, h => by
    cases l2 with
    | nil => exact absurd rfl h
    | cons b t => simp [List.getLast?_cons_cons]
  | a :: b :: l, l2, h => by
    have ih := getLast?_append_right (b :: l) l2 h
    simp only [List.cons_append, List.getLast?_cons_cons]
    simpa using ih

theorem joinSegs_getLast_ne_slash : ∀ (L : List (List Char)), L ≠ [] →
    (∀ x ∈ L, x ≠ [] ∧ ('/' : Char) ∉ x) → (joinSegs L).getLast? ≠ some '/'
  | [], h, _ => absurd rfl h
  | [s], _, h => by
    have hs := h s (by simp)
    intro heq
    have hmem : ('/' : Char) ∈ s := by
      apply getLast?_mem_of_eq s '/'
      simpa [joinSegs] using heq
    exact hs.2 hmem
  | s :: r2 :: rest, _, h => by
    have hrest : ∀ x ∈ r2 :: rest, x ≠ [] ∧ ('/' : Char) ∉ x :=
      fun x hx => h x (List.mem_cons_of_mem _ hx)
    have hne := joinSegs_ne_nil (r2 :: rest) (by simp) (fun x hx => (hrest x hx).1)
    have ih := joinSegs_getLast_ne_slash (r2 :: rest) (by simp) hrest
    have hj : joinSegs (s :: r2 :: rest) = s ++ '/' :: joinSegs (r2 :: rest) := by
      simp [joinSegs]
    rw [hj, getLast?_append_right s ('/' :: joinSegs (r2 :: rest)) (by simp)]
    cases hjr : joinSegs (r2 :: rest) with
    | nil => exact absurd hjr hne
    | cons j js =>
      rw [List.getLast?_cons_cons]
      rw [hjr] at ih
      exact ih

theorem segs_ne_nil_of_mem (p : List Char) (c : Char) (hc : c ∈ p) (hne : c ≠ '/') :
    segs p ≠ [] := by
  induction p with
  | nil => simp at hc
  | cons a p' ih =>
    by_cases ha : a = '/'
    · subst ha
      rw [segs_cons_slash]
      rcases List.mem_cons.mp hc with h | hmem
      · exact absurd h hne
      · exact ih hmem
    · obtain ⟨pre, rest, hsp⟩ := splitAux_head_ex p' [a]
      have hmem2 : (a :: pre) ∈ segs (a :: p') := by
        simp only [segs, splitAux, if_neg ha]
        rw [hsp]
        simp
      exact List.ne_nil_of_mem hmem2

theorem segs_normalizePath (s : List Char) (lead trail : Bool) :
    segs (normalizePath s lead trail) = segs s := by
  by_cases hs : s = []
  · subst hs; simp [normalizePath]
  · have hsegt : segs (joinSegs (segs s)) = segs s := segs_joinSegs _ (segs_props s)
    simp only [normalizePath, if_neg hs]
    by_cases htr : joinSegs (segs s) ≠ [] ∧ trail = true
    · rw [if_pos htr]
      cases lead with
      | true =>
        rw [if_pos rfl]
        show segs ('/' :: (joinSegs (segs s) ++ ['/'])) = segs s
        rw [segs_cons_slash, segs_append_slash, hsegt]
      | false =>
        rw [if_neg (by simp)]
        show segs ([] ++ (joinSegs (segs s) ++ ['/'])) = segs s
        rw [List.nil_append, segs_append_slash, hsegt]
    · rw [if_neg htr]
      cases lead with
      | true =>
        rw [if_pos rfl]
        show segs ('/' :: (joinSegs (segs s) ++ [])) = segs s
        rw [List.append_nil, segs_cons_slash, hsegt]
      | false =>
        rw [if_neg (by simp)]
        show segs ([] ++ (joinSegs (segs s) ++ [])) = segs s
        rw [List.nil_append, List.append_nil, hsegt]

theorem normalizePath_idem (s : List Char) (lead trail : Bool) :
    normalizePath (normalizePath s lead trail) lead trail = normalizePath s lead trail := by
  by_cases hr : normalizePath s lead trail = []
  · rw [hr]; simp [normalizePath]
  · have hs : s ≠ [] := by
      intro h
      apply hr
      simp [h, normalizePath]
    conv_lhs => rw [normalizePath]
    rw [if_neg hr, segs_normalizePath]
    conv_rhs => rw [normalizePath, if_neg hs]

theorem resourceInfoPath_no_root (p : List Char) (ty : Option RscType) (hp : p ≠ []) :
    resourceInfoPath p { rootDir := [], rscType := ty } =
      Except.ok (normalizePath p true (effectiveType p ty == RscType.dir)) := by
  have h1 : normalizePath [] false false = [] := by simp [normalizePath]
  have h2 : removeFirst p [] = p := by simp [removeFirst]
  simp only [resourceInfoPath, if_neg hp, h1, h2]

theorem normalizePath_lead_head (s : List Char) (hs : s ≠ []) (trail : Bool) :
    (normalizePath s true trail).head? = some '/' := by
  simp only [normalizePath, if_neg hs, if_pos rfl]
  rfl

theorem normalizePath_eq (s : List Char) (hs : s ≠ []) (lead trail : Bool) :
    normalizePath s lead trail =
      (if lead then ['/'] else []) ++ joinSegs (segs s) ++
        (if joinSegs (segs s) ≠ [] ∧ trail = true then ['/'] else []) := by
  rw [normalizePath, if_neg hs]

theorem normalizePath_dir_last (s : List Char) (hs : s ≠ []) :
    (normalizePath s true true).getLast? = some '/' := by
  rw [normalizePath_eq s hs]
  by_cases ht : joinSegs (segs s) = []
  · rw [ht]
    simp
  · have hcond : joinSegs (segs s) ≠ [] ∧ (true : Bool) = true := ⟨ht, rfl⟩
    rw [if_pos hcond, getLast?_append_right _ _ (by simp)]
    rfl

theorem dotAfterLetters_slash_or_nil (x : List Char)
    (hx : x = [] ∨ x.head? = some '/') : dotAfterLetters x = false := by
  rcases hx with h | h
  · rw [h]; rfl
  · cases x with
    | nil => rfl
    | cons c r =>
      simp only [List.head?_cons, Option.some.injEq] at h
      subst h
      show (if ('/' : Char) = '.' then true else isAsciiLetter '/' && dotAfterLetters r) = false
      rw [if_neg (by decide), show isAsciiLetter '/' = false from by decide, Bool.false_and]

theorem extMatchRev_slash_or_nil (x : List Char)
    (hx : x = [] ∨ x.head? = some '/') : extMatchRev x = false := by
  rcases hx with h | h
  · rw [h]; rfl
  · cases x with
    | nil => rfl
    | cons c r =>
      simp only [List.head?_cons, Option.some.injEq] at h
      subst h
      show (isAsciiLetter '/' && dotAfterLetters r) = false
      rw [show isAsciiLetter '/' = false from by decide, Bool.false_and]

theorem dotAfterLetters_congr : ∀ (u : List Char), ('/' : Char) ∉ u →
    ∀ (x y : List Char), (x = [] ∨ x.head? = some '/') → (y = [] ∨ y.head? = some '/') →
      dotAfterLetters (u ++ x) = dotAfterLetters (u ++ y)
  | [], _, x, y, hx, hy => by
    simp only [List.nil_append]
    rw [dotAfterLetters_slash_or_nil x hx, dotAfterLetters_slash_or_nil y hy]
  | c :: u', hu, x, y, hx, hy => by
    have hu' : ('/' : Char) ∉ u' := fun h => hu (List.mem_cons_of_mem _ h)
    have heq := dotAfterLetters_congr u' hu' x y hx hy
    show (if c = '.' then true else isAsciiLetter c && dotAfterLetters (u' ++ x)) =
      (if c = '.' then true else isAsciiLetter c && dotAfterLetters (u' ++ y))
    rw [heq]

theorem extMatchRev_congr (u : List Char) (hu : ('/' : Char) ∉ u)
    (x y : List Char) (hx : x = [] ∨ x.head? = some '/') (hy : y = [] ∨ y.head? = some '/') :
    extMatchRev (u ++ x) = extMatchRev (u ++ y) := by
  cases u with
  | nil =>
    simp only [List.nil_append]
    rw [extMatchRev_slash_or_nil x hx, extMatchRev_slash_or_nil y hy]
  | cons c u' =>
    have hu' : ('/' : Char) ∉ u' := fun h => hu (List.mem_cons_of_mem _ h)
    show (isAsciiLetter c && dotAfterLetters (u' ++ x)) =
      (isAsciiLetter c && dotAfterLetters (u' ++ y))
    rw [dotAfterLetters_congr u' hu' x y hx hy]

theorem dropWhile_head_false {α : Type} (q : α → Bool) : ∀ (l : List α) (a : α) (t : List α),
    l.dropWhile q = a :: t → q a = false
  | [], a, t, h => by simp [List.dropWhile] at h
  | b :: l, a, t, h => by
    by_cases hb : q b
    · rw [List.dropWhile_cons_of_pos hb] at h
      exact dropWhile_head_false q l a t h
    · rw [List.dropWhile_cons_of_neg hb] at h
      cases h
      simpa using hb

theorem eq_concat_of_getLast? {α : Type} : ∀ (l : List α) (a : α), l.getLast? = some a →
    ∃ l0, l = l0 ++ [a]
  | [], a, h => by simp at h
  | [x], a, h => by
    simp [List.getLast?] at h
    exact ⟨[], by simp [h]⟩
  | x :: y :: l, a, h => by
    rw [List.getLast?_cons_cons] at h
    obtain ⟨l0, hl⟩ := eq_concat_of_getLast? (y :: l) a h
    exact ⟨x :: l0, by simp [hl]⟩

theorem splitPath_decomp (p : List Char) :
    p = (splitPath p).1 ++ (splitPath p).2 ∧ ('/' : Char) ∉ (splitPath p).2 ∧
      ((splitPath p).1 = [] ∨ (splitPath p).1.getLast? = some '/') := by
  refine ⟨?_, ?_, ?_⟩
  · show p = (p.reverse.dropWhile _).reverse ++ (p.reverse.takeWhile _).reverse
    rw [← List.reverse_append, List.takeWhile_append_dropWhile, List.reverse_reverse]
  · intro hmem
    have hmem2 : ('/' : Char) ∈ p.reverse.takeWhile (fun c => !(c = '/')) := by
      simpa [splitPath] using hmem
    have := List.mem_takeWhile_imp hmem2
    simp at this
  · show (p.reverse.dropWhile (fun c => !(c = '/'))).reverse = [] ∨ _
    cases hd : p.reverse.dropWhile (fun c => !(c = '/')) with
    | nil => left; simp [hd]
    | cons a t =>
      right
      have ha := dropWhile_head_false _ _ a t hd
      simp only [Bool.not_eq_false] at ha
      have ha2 : a = '/' := by simpa using ha
      show (p.reverse.dropWhile (fun c => !(c = '/'))).reverse.getLast? = some '/'
      rw [hd, ha2]
      simp [List.getLast?_concat]

theorem joinSegs_concat : ∀ (L : List (List Char)) (u : List Char),
    joinSegs (L ++ [u]) = if L = [] then u else joinSegs L ++ '/' :: u
  | [], u => by simp [joinSegs]
  | [s], u => by simp [joinSegs]
  | s :: r2 :: rest, u => by
    have ih := joinSegs_concat (r2 :: rest) u
    have h1 : joinSegs ((s :: r2 :: rest) ++ [u]) =
        s ++ '/' :: joinSegs ((r2 :: rest) ++ [u]) := by
      simp [joinSegs]
    rw [h1, ih, if_neg (by simp), if_neg (by simp)]
    simp [joinSegs]

theorem joinSegs_tail_decomp (p : List Char) (hlast : (splitPath p).2 ≠ []) :
    ∃ w, joinSegs (segs p) = w ++ (splitPath p).2 ∧ (w = [] ∨ w.getLast? = some '/') := by
  obtain ⟨hdec, hnos, hv⟩ := splitPath_decomp p
  revert hlast hdec hnos hv
  generalize (splitPath p).1 = v
  generalize (splitPath p).2 = u
  intro hlast hdec hnos hv
  rcases hv with hnil | hslash
  · refine ⟨[], ?_, Or.inl rfl⟩
    rw [List.nil_append, hdec, hnil, List.nil_append,
      segs_single_no_slash u hlast hnos]
    rfl
  · obtain ⟨v0, hv0⟩ := eq_concat_of_getLast? _ _ hslash
    have hp : p = v0 ++ '/' :: u := by
      rw [hdec, hv0]
      simp
    rw [hp, segs_append, segs_single_no_slash _ hlast hnos, joinSegs_concat]
    by_cases hv0s : segs v0 = []
    · exact ⟨[], by rw [if_pos hv0s, List.nil_append], Or.inl rfl⟩
    · refine ⟨joinSegs (segs v0) ++ ['/'], ?_, Or.inr (List.getLast?_concat _)⟩
      rw [if_neg hv0s]
      simp

theorem endsWithExt_last_letter (p : List Char) (hp : endsWithExt p = true) :
    ∃ c r, p.reverse = c :: r ∧ isAsciiLetter c = true := by
  cases hr : p.reverse with
  | nil => rw [endsWithExt, hr] at hp; exact absurd hp (by decide)
  | cons c r =>
    rw [endsWithExt, hr] at hp
    have := (Bool.and_eq_true _ _).mp hp
    exact ⟨c, r, rfl, this.1⟩

theorem endsWithExt_splitPath_ne (p : List Char) (hp : endsWithExt p = true) :
    (splitPath p).2 ≠ [] := by
  obtain ⟨c, r, hr, hc⟩ := endsWithExt_last_letter p hp
  have hcs : ¬ c = '/' := by
    intro h
    rw [h] at hc
    exact absurd hc (by decide)
  show (p.reverse.takeWhile (fun c => !(c = '/'))).reverse ≠ []
  rw [hr, List.takeWhile_cons_of_pos (by simpa using hcs)]
  simp

theorem endsWithExt_normalize_file (p : List Char) (hp : endsWithExt p = true) :
    endsWithExt ('/' :: joinSegs (segs p)) = true := by
  have hu := endsWithExt_splitPath_ne p hp
  obtain ⟨hdec, hnos, hv⟩ := splitPath_decomp p
  obtain ⟨w, hw, hwlast⟩ := joinSegs_tail_decomp p hu
  have hunos : ('/' : Char) ∉ (splitPath p).2.reverse := by simpa using hnos
  have hx : w.reverse ++ ['/'] = [] ∨ (w.reverse ++ ['/']).head? = some '/' := by
    right
    rcases hwlast with h | h
    · rw [h]; rfl
    · cases hwr : w.reverse with
      | nil => simp [hwr]
      | cons a t =>
        have hsome : w.reverse.head? = some '/' := by rw [List.head?_reverse]; exact h
        rw [hwr] at hsome
        simp only [List.head?_cons, Option.some.injEq] at hsome
        simp [hsome]
  have hy : (splitPath p).1.reverse = [] ∨ ((splitPath p).1.reverse).head? = some '/' := by
    rcases hv with h | h
    · left; simp [h]
    · right; rw [List.head?_reverse]; exact h
  have key := extMatchRev_congr ((splitPath p).2.reverse) hunos
    (w.reverse ++ ['/']) ((splitPath p).1.reverse) hx hy
  have lhs_eq : ('/' :: joinSegs (segs p)).reverse =
      (splitPath p).2.reverse ++ (w.reverse ++ ['/']) := by
    rw [hw]
    simp
  have rhs_eq : p.reverse = (splitPath p).2.reverse ++ (splitPath p).1.reverse := by
    conv_lhs => rw [hdec]
    simp
  rw [endsWithExt, lhs_eq, key, ← rhs_eq, ← endsWithExt]
  exact hp

theorem endsWithExt_of_last_slash (r : List Char) (h : r.getLast? = some '/') :
    endsWithExt r = false := by
  rw [endsWithExt]
  apply extMatchRev_slash_or_nil
  right
  rw [List.head?_reverse]
  exact h

theorem normalizePath_file_last_ne (s : List Char) (hseg : segs s ≠ []) :
    (normalizePath s true false).getLast? ≠ some '/' := by
  have hs : s ≠ [] := by
    intro h
    rw [h] at hseg
    exact hseg segs_nil
  rw [normalizePath_eq s hs]
  have hcond : ¬ (joinSegs (segs s) ≠ [] ∧ (false : Bool) = true) := by simp
  rw [if_neg hcond]
  have hne := joinSegs_ne_nil (segs s) hseg (fun x hx => (segs_props s x hx).1)
  have hlast := joinSegs_getLast_ne_slash (segs s) hseg (segs_props s)
  rw [List.append_nil, getLast?_append_right _ _ hne]
  exact hlast

theorem head?_ne_nil {α : Type} (l : List α) (a : α) (h : l.head? = some a) : l ≠ [] := by
  intro hn
  rw [hn] at h
  simp at h

theorem rip_file_fixed (p : List Char) (hp : p ≠ []) (hext : endsWithExt p = true) :
    resourceInfoPath (normalizePath p true false) {} =
      Except.ok (normalizePath p true false) := by
  have hq : normalizePath p true false ≠ [] :=
    head?_ne_nil _ _ (normalizePath_lead_head p hp false)
  have hq_eq : normalizePath p true false = '/' :: joinSegs (segs p) := by
    rw [normalizePath_eq p hp]
    simp
  have hqe : endsWithExt (normalizePath p true false) = true := by
    rw [hq_eq]
    exact endsWithExt_normalize_file p hext
  rw [resourceInfoPath_no_root _ none hq]
  have hty : effectiveType (normalizePath p true false) none = RscType.file := by
    simp [effectiveType, hqe]
  rw [hty]
  show Except.ok (normalizePath (normalizePath p true false) true false) = _
  rw [normalizePath_idem p true false]

theorem rip_dir_fixed (p : List Char) (hp : p ≠ []) (_hext : endsWithExt p = false) :
    resourceInfoPath (normalizePath p true true) {} =
      Except.ok (normalizePath p true true) := by
  have hq : normalizePath p true true ≠ [] :=
    head?_ne_nil _ _ (normalizePath_lead_head p hp true)
  have hqe : endsWithExt (normalizePath p true true) = false :=
    endsWithExt_of_last_slash _ (normalizePath_dir_last p hp)
  rw [resourceInfoPath_no_root _ none hq]
  have hty : effectiveType (normalizePath p true true) none = RscType.dir := by
    simp [effectiveType, hqe]
  rw [hty]
  show Except.ok (normalizePath (normalizePath p true true) true true) = _
  rw [normalizePath_idem p true true]

theorem rip_idem (p r : List Char) (h : resourceInfoPath p {} = Except.ok r) :
    resourceInfoPath r {} = Except.ok r := by
  by_cases hp : p = []
  · rw [hp] at h
    simp [resourceInfoPath] at h
  · rw [resourceInfoPath_no_root p none hp] at h
    by_cases hext : endsWithExt p = true
    · have hty : effectiveType p none = RscType.file := by simp [effectiveType, hext]
      rw [hty] at h
      simp only [Except.ok.injEq] at h
      rw [← h]
      exact rip_file_fixed p hp hext
    · have hext2 : endsWithExt p = false := by simpa using hext
      have hty : effectiveType p none = RscType.dir := by simp [effectiveType, hext2]
      rw [hty] at h
      simp only [Except.ok.injEq] at h
      rw [← h]
      exact rip_dir_fixed p hp hext2

/-- Claim C5 counterexample: `ResourceInfo("/", {type: "file"})` has
canonical path `"/"`, which ends with a slash even though the resource
was declared a file — refuting the claim that a file's canonical path
never ends with `/`. -/
theorem c5_file_trailing_slash_counterexample :
    resourceInfoPath (("/").toList) { rscType := some RscType.file } =
      Except.ok (("/").toList) ∧ ((("/").toList).getLast? = some '/') :=
  ⟨by decide, by decide⟩

/-- Claim C5 (amended): for every nonempty raw path and every type
option (no rootDir), the canonical path starts with `/`; a directory
(declared or inferred) path always ends with `/`; a file path does not
end with `/` provided the raw path contains at least one character
other than `/` — for an all-slash raw path with declared type `file`
the canonical path is `"/"` and does end with a slash. -/
theorem resourceInfo_slash_invariants (p : List Char) (ty : Option RscType) (hp : p ≠ []) :
    ∃ r, resourceInfoPath p { rootDir := [], rscType := ty } = Except.ok r ∧
      r.head? = some '/' ∧
      (effectiveType p ty = RscType.dir → r.getLast? = some '/') ∧
      (effectiveType p ty = RscType.file → (∃ c ∈ p, c ≠ '/') → r.getLast? ≠ some '/') := by
  refine ⟨normalizePath p true (effectiveType p ty == RscType.dir),
    resourceInfoPath_no_root p ty hp, normalizePath_lead_head p hp _, ?_, ?_⟩
  · intro hdir
    rw [hdir]
    show (normalizePath p true true).getLast? = some '/'
    exact normalizePath_dir_last p hp
  · intro hfile hc
    rw [hfile]
    obtain ⟨c, hcm, hcn⟩ := hc
    show (normalizePath p true false).getLast? ≠ some '/'
    exact normalizePath_file_last_ne p (segs_ne_nil_of_mem p c hcm hcn)

/-- Witness for the amended claim C5, at the raw path `x//y.txt` with
inferred type. -/
theorem resourceInfo_slash_invariants_witness :
    ∃ r, resourceInfoPath (("x//y.txt").toList) { rootDir := [], rscType := none } =
      Except.ok r ∧ r.head? = some '/' ∧
      (effectiveType (("x//y.txt").toList) none = RscType.dir → r.getLast? = some '/') ∧
      (effectiveType (("x//y.txt").toList) none = RscType.file →
        (∃ c ∈ ("x//y.txt").toList, c ≠ '/') → r.getLast? ≠ some '/') :=
  resourceInfo_slash_invariants (("x//y.txt").toList) none (by decide)

/-- Claim C6: canonicalization is idempotent — constructing a
`ResourceInfo` (without options) from the canonical path of another
construction is the identity on paths, and `normalizePath` is
idempotent for every flag combination. -/
theorem canonicalization_idempotent :
    (∀ p r, resourceInfoPath p {} = Except.ok r → resourceInfoPath r {} = Except.ok r) ∧
    (∀ s lead trail, normalizePath (normalizePath s lead trail) lead trail =
      normalizePath s lead trail) :=
  ⟨rip_idem, normalizePath_idem⟩

/-- Witness for claim C6: the canonical form of `a//b.txt` is
`/a/b.txt`, and re-constructing from it is the identity. -/
theorem canonicalization_idempotent_witness :
    resourceInfoPath (("/a/b.txt").toList) {} = Except.ok (("/a/b.txt").toList) :=
  canonicalization_idempotent.1 (("a//b.txt").toList) (("/a/b.txt").toList) (by decide)

theorem assocGet_mem_keys {α : Type} : ∀ (m : JsAssoc α) (k : List Char) (v : α),
    assocGet m k = some v → k ∈ assocKeys m
  | [], k, v, h => by simp [assocGet] at h
  | e :: rest, k, v, h => by
    by_cases he : e.1 = k
    · rw [← he]
      exact List.mem_cons_self _ _
    · rw [assocGet, if_neg he] at h
      exact List.mem_cons_of_mem _ (assocGet_mem_keys rest k v h)

theorem assocGet_set_self {α : Type} : ∀ (m : JsAssoc α) (k : List Char) (v : α),
    assocGet (assocSet m k v) k = some v
  | [], k, v => by simp [assocSet, assocGet]
  | e :: rest, k, v => by
    by_cases he : e.1 = k
    · simp [assocSet, assocGet, he]
    · simp [assocSet, assocGet, he, assocGet_set_self rest k v]

/-- Claim C3 evaluation at the failing input: with `rootDir = "/root"`,
the raw path `/my/rooted/file.txt` — in which `/root` is not a leading
prefix — is nonetheless altered: the first substring occurrence of the
slash-trimmed root `root` (inside the segment `rooted`) is removed,
yielding `/my/ed/file.txt` instead of leaving the path untouched. -/
theorem c3_rootdir_substring_removal :
    resourceInfoPath (("/my/rooted/file.txt").toList) { rootDir := ("/root").toList } =
      Except.ok (("/my/ed/file.txt").toList) ∧
    (("/my/ed/file.txt").toList ≠ ("/my/rooted/file.txt").toList) :=
  ⟨by decide, by decide⟩

/-- Claim C10: in the InMemory adapter a file whose stored content is
the empty string is treated as absent — `getFileContent` and
`deleteFile` both throw `FileNotFoundError` although the key is present
in the map, the key still appears in (recursive) directory listings,
and after `updateTextFile(p, "")` a read of `p` fails. -/
theorem inmem_empty_text_treated_absent (m : JsMap) (p : List Char)
    (h : assocGet m p = some (JsContent.text [])) :
    inMemGetFileContent m p = Except.error (FmError.fileNotFoundError p msgFileNotFound) ∧
    inMemDeleteFile m p = Except.error (FmError.fileNotFoundError p msgCannotDelete) ∧
    (∀ d, d.isPrefixOf p = true → p ∈ inMemListKeys m d true) ∧
    inMemGetFileContent (inMemUpdateTextFile m p []) p =
      Except.error (FmError.fileNotFoundError p msgFileNotFound) := by
  refine ⟨?_, ?_, ?_, ?_⟩
  · simp [inMemGetFileContent, h, JsContent.truthy]
  · simp [inMemDeleteFile, h, JsContent.truthy]
  · intro d hd
    apply List.mem_filter.mpr
    refine ⟨assocGet_mem_keys m p _ h, ?_⟩
    simp [hd]
  · have h2 : assocGet (inMemUpdateTextFile m p []) p = some (JsContent.text []) :=
      assocGet_set_self m p _
    simp [inMemGetFileContent, h2, JsContent.truthy]

/-- Witness for claim C10 on a one-file store holding an empty string. -/
theorem inmem_empty_text_treated_absent_witness :
    inMemGetFileContent [(("/e.txt").toList, JsContent.text [])] (("/e.txt").toList) =
      Except.error (FmError.fileNotFoundError (("/e.txt").toList) msgFileNotFound) ∧
    (("/e.txt").toList) ∈ inMemListKeys [(("/e.txt").toList, JsContent.text [])]
      (("/").toList) true :=
  ⟨(inmem_empty_text_treated_absent [(("/e.txt").toList, JsContent.text [])]
      (("/e.txt").toList) (by decide)).1,
   (inmem_empty_text_treated_absent [(("/e.txt").toList, JsContent.text [])]
      (("/e.txt").toList) (by decide)).2.2.1 (("/").toList) (by decide)⟩

/-- Claim C7 counterexample: with stored keys `/dir/`, `/dir/sub/` and
`/dir/a.txt`, the non-recursive listing of `/dir/` returns the
directory's own key and the file — but not the immediate subdirectory
marker `/dir/sub/`, although it extends the directory by exactly one
segment; the claim requires the opposite on both counts. -/
theorem c7_nonrecursive_listing_counterexample :
    inMemListKeys
      [(("/dir/").toList, JsContent.text []), (("/dir/sub/").toList, JsContent.text []),
       (("/dir/a.txt").toList, JsContent.text ("x").toList)]
      (("/dir/").toList) false = [("/dir/").toList, ("/dir/a.txt").toList] := by decide

/-- Claim C7 (amended): non-recursive listing selects exactly the
stored keys that have `dirPath` as a string prefix and whose remainder
after the prefix contains no slash — the immediate file children plus
the directory's own marker key when stored; immediate subdirectory
marker keys (remainder `name/`) are excluded, and deeper descendants
are excluded. -/
theorem inmem_nonrecursive_key_selection (m : JsMap) (d k : List Char) :
    k ∈ inMemListKeys m d false ↔
      (k ∈ assocKeys m ∧ d.isPrefixOf k = true ∧ ('/' : Char) ∉ k.drop d.length) := by
  have hc : ∀ (l : List Char) (a : Char), l.contains a = decide (a ∈ l) := by
    intro l a
    simp [List.contains]
  rw [inMemListKeys, List.mem_filter]
  simp [hc, and_assoc]

/-- Claim C9 counterexample: `deleteDirectory("/dir")` on a store
holding only `/director.txt` deletes that file, although its canonical
path does not start with the target directory's canonical path
`/dir/` — the code matches raw string prefixes, not canonical ones. -/
theorem c9_delete_directory_counterexample :
    resourceInfoPath (("/dir").toList) {} = Except.ok (("/dir/").toList) ∧
    ((("/dir/").toList).isPrefixOf (("/director.txt").toList) = false) ∧
    assocGet [(("/director.txt").toList, JsContent.text ("x").toList)]
      (("/director.txt").toList) = some (JsContent.text ("x").toList) ∧
    assocGet (inMemDeleteDirectory
      [(("/director.txt").toList, JsContent.text ("x").toList)] (("/dir").toList))
      (("/director.txt").toList) = none :=
  ⟨by decide, by decide, by decide, by decide⟩

/-- Claim C9 (amended): InMemory `deleteDirectory(d)` removes exactly
the stored entries whose key has the raw string `d` as a prefix and
leaves every other entry unchanged.  The prefix match is on the raw
strings as stored and as passed — when `d` is a canonical directory
path (ending in `/`) this coincides with the canonical-prefix rule, but
a non-canonical `d` can also delete a sibling whose name merely starts
with the same characters. -/
theorem inmem_delete_directory_prefix_rule (m : JsMap) (d k : List Char) :
    assocGet (inMemDeleteDirectory m d) k =
      (if d.isPrefixOf k = true then none else assocGet m k) := by
  induction m with
  | nil =>
    cases hd : d.isPrefixOf k <;> simp [inMemDeleteDirectory, assocGet]
  | cons e rest ih =>
    by_cases hpre : d.isPrefixOf e.1 = true
    · have hfil : inMemDeleteDirectory (e :: rest) d = inMemDeleteDirectory rest d := by
        simp [inMemDeleteDirectory, hpre]
      rw [hfil, ih]
      by_cases hk : e.1 = k
      · rw [← hk, hpre]
        simp
      · rw [assocGet, if_neg hk]
    · have hb : d.isPrefixOf e.1 = false := by
        cases hx : d.isPrefixOf e.1 with
        | true => exact absurd hx hpre
        | false => rfl
      have hfil : inMemDeleteDirectory (e :: rest) d = e :: inMemDeleteDirectory rest d := by
        simp [inMemDeleteDirectory, List.filter_cons, hb]
      rw [hfil]
      by_cases hk : e.1 = k
      · have hdk : d.isPrefixOf k = false := by
          rw [← hk]
          exact Bool.not_eq_true _ ▸ (by simpa using hpre)
        rw [assocGet, if_pos hk, hdk, assocGet, if_pos hk]
        simp
      · rw [assocGet, if_neg hk, ih, assocGet, if_neg hk]

/-- Claim C8 counterexample: on a Drive holding `/sub/b.txt` nested
under `/sub/`, listing `/` with `recursive = true` returns only the two
immediate children — there is no entry for the nested file, because the
adapter receives the flag as `_recursive` and never uses it. -/
theorem c8_drive_recursive_ignored_counterexample :
    driveListDirectoryContent demoDriveBe (("/").toList) driveInitCache (("/").toList) true =
      Except.ok ([("/sub/").toList, ("/a.txt").toList],
        [(("/").toList, driveRootId), ([], driveRootId)]) ∧
    driveListDirectoryContent demoDriveBe (("/").toList) driveInitCache (("/").toList) true =
      driveListDirectoryContent demoDriveBe (("/").toList) driveInitCache (("/").toList) false :=
  ⟨by decide, by decide⟩

/-- Claim C8 (amended): the GoogleDrive adapter ignores the `recursive`
flag entirely — recursive and non-recursive listings coincide for every
backend, root, cache and path — and the InMemory adapter's recursive
listing returns exactly the stored keys having `dirPath` as a string
prefix (including the directory's own marker key), in map insertion
order rather than in a depth-first regrouping.  Only the Github adapter
implements the descend-and-concatenate traversal. -/
theorem recursive_listing_behavior :
    (∀ (be : DriveBe) (rootDir : List Char) (cache : IdCache) (p : List Char),
      driveListDirectoryContent be rootDir cache p true =
        driveListDirectoryContent be rootDir cache p false) ∧
    (∀ (m : JsMap) (d k : List Char),
      k ∈ inMemListKeys m d true ↔ (k ∈ assocKeys m ∧ d.isPrefixOf k = true)) := by
  constructor
  · intro be rootDir cache p
    rfl
  · intro m d k
    rw [inMemListKeys, List.mem_filter]
    simp

/-- Claim C2 evaluation at the failing input: the GoogleDrive adapter's
`updateTextFile` on a Drive holding no file at the path throws
`FileNotFoundError` instead of creating the file, violating the
documented upsert contract; the InMemory adapter's update, by contrast,
creates the file with an unconditional `Map.set`. -/
theorem c2_drive_update_not_upsert :
    driveUpdateTextFile emptyDriveBe (("/").toList) driveInitCache
      (("/test.txt").toList) (("Hello, World!").toList) =
      Except.error (DriveEscape.contract (FmError.fileNotFoundError (("/test.txt").toList)
        (msgDriveFileNoExist (("/test.txt").toList)))) ∧
    assocGet (inMemUpdateTextFile [] (("/test.txt").toList) (("Hello, World!").toList))
      (("/test.txt").toList) = some (JsContent.text (("Hello, World!").toList)) :=
  ⟨by decide, by decide⟩

/-- Claim C1: a 404 from the content-API metadata fetch is never
surfaced as an error — `getFileInfos` succeeds with the
`content = null, sha = null` descriptor — and the update methods select
create vs update purely by the nullity of the fetched `sha`: a null sha
produces a create call without a sha, a non-null sha an update call
passing it. -/
theorem github_404_create_update_selection (getC : GhGetContent)
    (rootDir p tc : List Char) (bc : List Nat) (e : GhErr)
    (h404 : getC (ghFullPath rootDir p) = Except.error e) (hst : e.status = 404) :
    ghGetFileInfos getC rootDir p =
      Except.ok { path := p, content := none, encoding := base64Chars, size := 0, sha := none } ∧
    ghUpdateTextFileIssued getC rootDir p tc =
      Except.ok (GhCall.createCall p (GhPayload.fromText tc) (createdMsg p)) ∧
    ghUpdateBinaryFileIssued getC rootDir p bc =
      Except.ok (GhCall.createCall p (GhPayload.fromBinary bc) (createdMsg p)) ∧
    (∀ (getC2 : GhGetContent) (f : GhFileData),
      ghGetFileInfos getC2 rootDir p = Except.ok f →
      (f.sha = none →
        ghUpdateTextFileIssued getC2 rootDir p tc =
          Except.ok (GhCall.createCall f.path (GhPayload.fromText tc) (createdMsg f.path)) ∧
        ghUpdateBinaryFileIssued getC2 rootDir p bc =
          Except.ok (GhCall.createCall f.path (GhPayload.fromBinary bc) (createdMsg f.path))) ∧
      (∀ s, f.sha = some s →
        ghUpdateTextFileIssued getC2 rootDir p tc =
          Except.ok (GhCall.updateCall f.path (GhPayload.fromText tc) s (updatedMsg f.path)) ∧
        ghUpdateBinaryFileIssued getC2 rootDir p bc =
          Except.ok (GhCall.updateCall f.path (GhPayload.fromBinary bc) s
            (updatedMsg f.path)))) := by
  have hinfos : ghGetFileInfos getC rootDir p =
      Except.ok { path := p, content := none, encoding := base64Chars, size := 0, sha := none } := by
    rw [ghGetFileInfos, h404]
    simp [hst]
  refine ⟨hinfos, ?_, ?_, ?_⟩
  · rw [ghUpdateTextFileIssued, hinfos]
    rfl
  · rw [ghUpdateBinaryFileIssued, hinfos]
    rfl
  · intro getC2 f hok
    refine ⟨?_, ?_⟩
    · intro hsha
      constructor
      · simp [ghUpdateTextFileIssued, hok, ghSelectCall, hsha]
      · simp [ghUpdateBinaryFileIssued, hok, ghSelectCall, hsha]
    · intro s hsha
      constructor
      · simp [ghUpdateTextFileIssued, hok, ghSelectCall, hsha]
      · simp [ghUpdateBinaryFileIssued, hok, ghSelectCall, hsha]

/-- Witness for claim C1 on a backend that 404s every request. -/
theorem github_404_create_update_selection_witness :
    ghGetFileInfos ghBackend404 [] (("/a.txt").toList) =
      Except.ok (GhFileData.mk (("/a.txt").toList) none base64Chars 0 none) ∧
    ghUpdateTextFileIssued ghBackend404 [] (("/a.txt").toList) (("hi").toList) =
      Except.ok (GhCall.createCall (("/a.txt").toList) (GhPayload.fromText (("hi").toList))
        (createdMsg (("/a.txt").toList))) :=
  ⟨(github_404_create_update_selection ghBackend404 [] (("/a.txt").toList) (("hi").toList)
      [] (GhErr.mk 404 []) rfl rfl).1,
   (github_404_create_update_selection ghBackend404 [] (("/a.txt").toList) (("hi").toList)
      [] (GhErr.mk 404 []) rfl rfl).2.1⟩

/-- Claim C4 counterexample: a 500 rejection of the metadata fetch is
re-thrown raw by `getFileInfos` (line 113), so `getFileContent`
surfaces the raw octokit error object — not one of the three contract
error kinds — to its caller. -/
theorem c4_raw_backend_error_escapes :
    ghGetFileContent ghBackend500 [] (("/a.txt").toList) =
      Except.error (GhEscape.backendRaw { status := 500, message := ("boom").toList }) := by
  decide

/-- Claim C4 (amended): each adapter wraps only the operation-phase
backend call — a Github mutation rejection is wrapped once as
`FileUpdateError`, and once Drive file-ID resolution has succeeded an
update either succeeds or fails wrapped as `FileManagerError(500)` —
while resolution-phase backend failures (a non-404 `getContent`
rejection on Github, a `files.list` rejection during the Drive path
walk) are re-thrown unwrapped and can cross the contract boundary. -/
theorem operation_phase_wrapping
    (getC : GhGetContent) (rootDir p tc : List Char) (f : GhFileData) (em : GhErr)
    (be : DriveBe) (dRoot : List Char) (cache : IdCache) (dp dc fid : List Char)
    (cache2 : IdCache)
    (hgh : ghGetFileInfos getC rootDir p = Except.ok f)
    (hdr : driveGetFileIdByPath be dRoot cache dp = Except.ok (fid, cache2)) :
    (∀ mutate : GhCall → Except GhErr Unit,
      mutate (ghSelectCall f (GhPayload.fromText tc)) = Except.error em →
      ghUpdateTextFile getC mutate rootDir p tc =
        Except.error (GhEscape.contract (FmError.fileUpdateError f.path em.message))) ∧
    (driveUpdateTextFile be dRoot cache dp dc = Except.ok cache2 ∨
      driveUpdateTextFile be dRoot cache dp dc =
        Except.error (DriveEscape.contract
          (FmError.fileManagerError 500 (msgFailUpdText dp)))) := by
  constructor
  · intro mutate hmut
    simp [ghUpdateTextFile, hgh, hmut]
  · cases hub : be.updateMedia fid (DriveMedia.text dc) with
    | ok u =>
      left
      simp [driveUpdateTextFile, hdr, hub]
    | error er =>
      right
      simp [driveUpdateTextFile, hdr, hub]

/-- Witness for amended claim C4: the Github wrap at a 404 backend with
an always-failing mutation, and the Drive alternative at the demo
backend. -/
theorem operation_phase_wrapping_witness :
    ghUpdateTextFile ghBackend404 ghMutAlwaysFail [] (("/a.txt").toList) (("hi").toList) =
      Except.error (GhEscape.contract (FmError.fileUpdateError (("/a.txt").toList)
        (("boom").toList))) ∧
    (driveUpdateTextFile demoDriveBe (("/").toList) driveInitCache (("/a.txt").toList)
        (("new").toList) =
      Except.ok [(("/").toList, driveRootId), ([], driveRootId),
        ((("/a.txt").toList), ("a1").toList)] ∨
     driveUpdateTextFile demoDriveBe (("/").toList) driveInitCache (("/a.txt").toList)
        (("new").toList) =
      Except.error (DriveEscape.contract
        (FmError.fileManagerError 500 (msgFailUpdText (("/a.txt").toList))))) :=
  ⟨(operation_phase_wrapping ghBackend404 [] (("/a.txt").toList) (("hi").toList)
      (GhFileData.mk (("/a.txt").toList) none base64Chars 0 none)
      (GhErr.mk 500 (("boom").toList))
      demoDriveBe (("/").toList) driveInitCache (("/a.txt").toList) (("new").toList)
      (("a1").toList)
      [(("/").toList, driveRootId), ([], driveRootId), ((("/a.txt").toList), ("a1").toList)]
      (by decide) (by decide)).1 ghMutAlwaysFail (by decide),
   (operation_phase_wrapping ghBackend404 [] (("/a.txt").toList) (("hi").toList)
      (GhFileData.mk (("/a.txt").toList) none base64Chars 0 none)
      (GhErr.mk 500 (("boom").toList))
      demoDriveBe (("/").toList) driveInitCache (("/a.txt").toList) (("new").toList)
      (("a1").toList)
      [(("/").toList, driveRootId), ([], driveRootId), ((("/a.txt").toList), ("a1").toList)]
      (by decide) (by decide)).2⟩
